import Mathlib

/-!
Verification development for the yoga session narrator (src/yoga_agent.py).

The embedding covers the two core components the claims are about:

* the segment parser (`parse_session`, `HOLD_PATTERN`, `STYLE`), modelled as a
  character-level scanner faithful to the regex
  `<hold (\d+) (second|minute|minutes|seconds)>` with `re.IGNORECASE` and to
  `re.finditer` semantics (leftmost, non-overlapping matches);

* the pipelined playback scheduler (`run_yoga_session`), modelled as a
  deterministic interpreter parameterised by an oracle that fixes the
  asynchronous environment: per-segment synthesis latency (in poll ticks),
  synthesis failure, playback-sink failure, and the number of poll iterations
  a hold performs.  Real time (`time.sleep`, `time.time`) is abstracted into
  poll ticks; a future submitted at tick `t` for segment `i` is done at every
  tick `≥ t + lat i`.  The blocking wait loop is given explicit fuel (the
  Python loop can spin forever on a hung backend call); all scheduler theorems
  are stated for runs that terminate within their fuel, and each is
  accompanied by a concrete terminating run.

Scope notes on the embedding of the parser: Python `\d` also accepts non-ASCII
decimal digits and `re.IGNORECASE` folds a few non-ASCII letters; the model
restricts both to ASCII, which is the range exercised by the specification and
by every session file.
-/

set_option maxRecDepth 10000

namespace Yoga

/-! ## Segment model -/

inductive Segment where
  | narration (content : String)
  | hold (seconds : Nat)
deriving DecidableEq, Repr

def Segment.isNarration : Segment → Bool
  | .narration _ => true
  | .hold _ => false

/-! ## Parser (`parse_session`)

Python source:

    HOLD_PATTERN = re.compile(r'<hold (\d+) (second|minute|minutes|seconds)>', re.IGNORECASE)
    STYLE = "Speak as a yoga instructor running a relaxing session. ..."

    def parse_session(text):
        segments = []
        pos = 0
        for match in HOLD_PATTERN.finditer(text):
            start, end = match.span()
            if start > pos:
                segments.append(('narration', f"{STYLE}'{text[pos:start].strip()}'"))
            duration = int(match.group(1))
            unit = match.group(2).lower()
            if 'minute' in unit:
                seconds = duration * 60
            else:
                seconds = duration
            segments.append(('hold', seconds))
            pos = end
        if pos < len(text):
            segments.append(('narration', f"{STYLE}'{text[pos:].strip()}'"))
        return [seg for seg in segments if seg[1]]
-/

def STYLE : String :=
  "Speak as a yoga instructor running a relaxing session. Use a soft, gentle voice just above a whisper and without strong emphasis on words: "

/-- The single-quote character used by the f-string wrapping. -/
def quoteChar : Char := Char.ofNat 39

/-- ASCII whitespace stripped by Python `str.strip()`. -/
def isPyWhitespace (c : Char) : Bool :=
  c == ' ' || c == '\t' || c == '\n' || c == '\r' || c == '\x0b' || c == '\x0c'

/-- `str.strip()` on a character list. -/
def stripChars (cs : List Char) : List Char :=
  ((cs.dropWhile isPyWhitespace).reverse.dropWhile isPyWhitespace).reverse

/-- The narration content `f"{STYLE}'{chunk.strip()}'"`. -/
def mkNarr (chunk : List Char) : String :=
  String.mk (STYLE.data ++ quoteChar :: stripChars chunk ++ [quoteChar])

/-- Case-insensitive match of a literal (given lowercased); returns the rest of
the input on success. -/
def matchCI : List Char → List Char → Option (List Char)
  | [], cs => some cs
  | _ :: _, [] => none
  | l :: ls, c :: cs => if c.toLower == l then matchCI ls cs else none

/-- Maximal leading run of ASCII digits (`\d+` is greedy and is followed by a
non-digit literal, so backtracking never shortens it). -/
def takeDigits : List Char → List Char × List Char
  | [] => ([], [])
  | c :: cs =>
    if c.isDigit then
      let (ds, rest) := takeDigits cs
      (c :: ds, rest)
    else
      ([], c :: cs)

def digitsToNat (ds : List Char) : Nat :=
  ds.foldl (fun n c => n * 10 + (c.toNat - 48)) 0

/-- The unit alternatives in the alternation order of the regex. -/
def unitAlternatives : List (List Char) :=
  ["second".data, "minute".data, "minutes".data, "seconds".data]

/-- Try each unit alternative followed by the literal closing bracket of the
tag; returns the (lowercased) unit and the rest after the bracket. -/
def tryUnits : List (List Char) → List Char → Option (List Char × List Char)
  | [], _ => none
  | u :: us, cs =>
    match matchCI (u ++ ['>']) cs with
    | some rest => some (u, rest)
    | none => tryUnits us cs

/-- Substring containment, as the Python operator written `needle in hay`. -/
def startsWithChars : List Char → List Char → Bool
  | [], _ => true
  | _ :: _, [] => false
  | n :: ns, h :: hs => n == h && startsWithChars ns hs

def containsSub (needle : List Char) : List Char → Bool
  | [] => needle.isEmpty
  | h :: hs => startsWithChars needle (h :: hs) || containsSub needle hs

/-- Attempt to match `HOLD_PATTERN` at the head of `cs`.  On success returns
(group(1) as a number, group(2) lowercased, rest after the match). -/
def matchHoldAt (cs : List Char) : Option (Nat × List Char × List Char) :=
  match matchCI "<hold ".data cs with
  | none => none
  | some cs1 =>
    let (ds, cs2) := takeDigits cs1
    if ds.isEmpty then none
    else
      match cs2 with
      | ' ' :: cs3 =>
        match tryUnits unitAlternatives cs3 with
        | some (u, rest) => some (digitsToNat ds, u, rest)
        | none => none
      | _ => none

/-- `seconds = duration * 60 if 'minute' in unit else duration`. -/
def unitSeconds (duration : Nat) (unit : List Char) : Nat :=
  if containsSub "minute".data unit then duration * 60 else duration

theorem matchCI_suffix :
    ∀ lit cs rest, matchCI lit cs = some rest →
      ∃ pre, pre ++ rest = cs ∧ pre.length = lit.length := by
  intro lit
  induction lit with
  | nil =>
    intro cs rest h
    simp [matchCI] at h
    exact ⟨[], by simp [h]⟩
  | cons l ls ih =>
    intro cs rest h
    cases cs with
    | nil => simp [matchCI] at h
    | cons c cs' =>
      simp only [matchCI] at h
      split at h
      · obtain ⟨pre, hpre, hlen⟩ := ih cs' rest h
        exact ⟨c :: pre, by simp [hpre], by simp [hlen]⟩
      · exact absurd h (by simp)

theorem takeDigits_eq : ∀ cs, (takeDigits cs).1 ++ (takeDigits cs).2 = cs := by
  intro cs
  induction cs with
  | nil => simp [takeDigits]
  | cons c cs' ih =>
    simp only [takeDigits]
    split
    · simpa using ih
    · simp

theorem tryUnits_suffix :
    ∀ us cs u rest, tryUnits us cs = some (u, rest) →
      ∃ pre, pre ++ rest = cs ∧ 0 < pre.length := by
  intro us
  induction us with
  | nil => intro cs u rest h; simp [tryUnits] at h
  | cons v vs ih =>
    intro cs u rest h
    simp only [tryUnits] at h
    cases hm : matchCI (v ++ ['>']) cs with
    | some r =>
      rw [hm] at h
      obtain ⟨pre, hpre, hlen⟩ := matchCI_suffix _ _ _ hm
      simp only [Option.some.injEq, Prod.mk.injEq] at h
      refine ⟨pre, by rw [h.2] at hpre; exact hpre, ?_⟩
      rw [hlen]
      simp
    | none =>
      rw [hm] at h
      exact ih cs u rest h

theorem matchHoldAt_suffix {cs : List Char} {n : Nat} {u rest : List Char}
    (h : matchHoldAt cs = some (n, u, rest)) :
    ∃ pre, pre ++ rest = cs ∧ 0 < pre.length := by
  unfold matchHoldAt at h
  cases h1 : matchCI "<hold ".data cs with
  | none => rw [h1] at h; exact absurd h (by simp)
  | some cs1 =>
    rw [h1] at h
    obtain ⟨pre1, hpre1, hlen1⟩ := matchCI_suffix _ _ _ h1
    simp only at h
    split at h
    · exact absurd h (by simp)
    · rename_i hne
      split at h
      · rename_i cs3 h2
        cases h3 : tryUnits unitAlternatives cs3 with
        | none => rw [h3] at h; exact absurd h (by simp)
        | some pr =>
          obtain ⟨u', rest'⟩ := pr
          rw [h3] at h
          simp only [Option.some.injEq, Prod.mk.injEq] at h
          obtain ⟨-, -, hrest⟩ := h
          obtain ⟨pre3, hpre3, hlen3⟩ := tryUnits_suffix _ _ _ _ h3
          refine ⟨pre1 ++ (takeDigits cs1).1 ++ [' '] ++ pre3, ?_, ?_⟩
          · subst hrest
            calc pre1 ++ (takeDigits cs1).1 ++ [' '] ++ pre3 ++ rest'
                = pre1 ++ ((takeDigits cs1).1 ++ (' ' :: (pre3 ++ rest'))) := by
                  simp [List.append_assoc]
              _ = cs := by
                  rw [hpre3]
                  rw [← h2]
                  rw [takeDigits_eq cs1]
                  exact hpre1
          · simp
      · exact absurd h (by simp)

theorem matchHoldAt_length {cs : List Char} {n : Nat} {u rest : List Char}
    (h : matchHoldAt cs = some (n, u, rest)) : rest.length < cs.length := by
  obtain ⟨pre, hpre, hlen⟩ := matchHoldAt_suffix h
  have := congrArg List.length hpre
  simp [List.length_append] at this
  omega

/-- The scanning loop of `parse_session`: `acc` holds the characters since the
end of the previous match (the pending narration chunk), `cs` the unconsumed
input.  Trying the pattern at every position and advancing one character on
failure is exactly `finditer`'s leftmost, non-overlapping match semantics.
The recursion consumes at least one input character per step
(`matchHoldAt_length`), so with the fuel `parse_session` supplies
(`length + 1`) the `0` case is unreachable; fuel only makes the recursion
structural. -/
def scanAux : Nat → List Char → List Char → List Segment
  | 0, _, _ => []
  | fuel + 1, cs, acc =>
    match matchHoldAt cs with
    | some (n, u, rest) =>
      (if acc.isEmpty then [] else [Segment.narration (mkNarr acc)]) ++
        Segment.hold (unitSeconds n u) :: scanAux fuel rest []
    | none =>
      match cs with
      | [] => if acc.isEmpty then [] else [Segment.narration (mkNarr acc)]
      | c :: cs' => scanAux fuel cs' (acc ++ [c])

/-- Python truthiness of `seg[1]`: nonempty string for a narration, nonzero
number for a hold (the final `[seg for seg in segments if seg[1]]`). -/
def segTruthy : Segment → Bool
  | .narration s => !s.isEmpty
  | .hold n => n != 0

def parse_session (text : String) : List Segment :=
  (scanAux (text.data.length + 1) text.data []).filter segTruthy

/-! ## Pipelined playback scheduler (`run_yoga_session`)

Python source (core loop, src/yoga_agent.py lines 205-293):

    segments = parse_session(session_text)
    executor = ThreadPoolExecutor(max_workers=3)
    future_to_index = {}
    narration_segments = [(i, seg) for i, seg in enumerate(segments) if seg[0] == 'narration']
    for i, (seg_idx, seg) in enumerate(narration_segments[:buffer_size]):
        if i < len(narration_segments):          # always true on a slice of that list
            future = executor.submit(process_narration_segment, seg[1])
            future_to_index[future] = seg_idx
    processed_segments = {}
    next_to_process = buffer_size
    for seg_idx, (seg_type, content) in enumerate(segments):
        if seg_type == 'narration':
            while seg_idx not in processed_segments:
                ... harvest futures that are done (recording None on exception) ...
                ... if next_to_process < len(narration_segments): submit it ...
                if seg_idx not in processed_segments: time.sleep(0.1)
            audio_file = processed_segments.pop(seg_idx)
            if audio_file: play_audio_file(audio_file, delete_after=True)
        elif seg_type == 'hold':
            while time.time() - hold_start < content:
                ... same harvest ...
                ... same conditional submit ...
                time.sleep(0.1)
    executor.shutdown(wait=True)

The oracle below closes the asynchronous environment: `lat i` is the number of
poll ticks between submission of segment `i` and its future reporting done,
`fail i` whether `future.result()` raises, `sinkFail i` whether
`play_audio_file` (ffplay with `check=True`) raises for segment `i`, and
`holdIters i` how many poll iterations the wall-clock hold loop at overall
index `i` performs.  `maxWindow`, `playedNarrs` and `submittedCount` are ghost
instrumentation (they influence nothing): at each submission the window
`submittedCount + 1 - playedNarrs` is the claim's
`next_unsubmitted_index - next_unplayed_narration_index` in narration-list
coordinates. -/

inductive Event where
  | submit (segIdx : Nat)
  | play (segIdx : Nat)
  | holdWait (segIdx : Nat) (seconds : Nat)
  | shutdown
deriving DecidableEq, Repr

structure Oracle where
  lat : Nat → Nat
  fail : Nat → Bool
  sinkFail : Nat → Bool
  holdIters : Nat → Nat

structure St where
  pending : List (Nat × Nat)
  processed : List (Nat × Option Nat)
  nextToProcess : Nat
  tick : Nat
  trace : List Event
  playedNarrs : Nat
  submittedCount : Nat
  maxWindow : Nat
deriving Repr

/-- `future.done()` at the given tick, for a pending entry (segIdx, submitTick). -/
def isDone (o : Oracle) (tick : Nat) (p : Nat × Nat) : Bool :=
  p.2 + o.lat p.1 ≤ tick

/-- One harvesting pass: move every completed future from `future_to_index`
into `processed_segments`, recording `None` when `future.result()` raised. -/
def harvest (o : Oracle) (s : St) : St :=
  { s with
    pending := s.pending.filter (fun p => !isDone o s.tick p),
    processed := s.processed ++
      (s.pending.filter (isDone o s.tick)).map
        (fun p => (p.1, if o.fail p.1 then none else some p.1)) }

/-- `executor.submit(process_narration_segment, ...)`; `future_to_index[future] = seg_idx`. -/
def submitSeg (segIdx : Nat) (s : St) : St :=
  { s with
    pending := s.pending ++ [(segIdx, s.tick)],
    trace := s.trace ++ [Event.submit segIdx],
    submittedCount := s.submittedCount + 1,
    maxWindow := max s.maxWindow (s.submittedCount + 1 - s.playedNarrs) }

/-- `if next_to_process < len(narration_segments): submit it; next_to_process += 1`. -/
def submitNext (narrs : List (Nat × Segment)) (s : St) : St :=
  match narrs.get? s.nextToProcess with
  | some p => { submitSeg p.1 s with nextToProcess := s.nextToProcess + 1 }
  | none => s

/-- `processed_segments` lookup (`seg_idx in processed_segments` / its value). -/
def lookupProc (processed : List (Nat × Option Nat)) (i : Nat) : Option (Option Nat) :=
  (processed.find? (fun p => p.1 == i)).map Prod.snd

/-- `processed_segments.pop(seg_idx)` (the removal part). -/
def popProc (s : St) (segIdx : Nat) : St :=
  { s with processed := s.processed.filter (fun p => p.1 != segIdx) }

/-- The `while seg_idx not in processed_segments` wait loop.  Fuel bounds the
number of poll iterations; the Python loop has no such bound and can spin
forever on a never-completing future. -/
def waitLoop (o : Oracle) (narrs : List (Nat × Segment)) (segIdx : Nat) :
    Nat → St → Option St
  | 0, s => if (lookupProc s.processed segIdx).isSome then some s else none
  | fuel + 1, s =>
    if (lookupProc s.processed segIdx).isSome then some s
    else
      let s1 := submitNext narrs (harvest o s)
      let s2 :=
        if (lookupProc s1.processed segIdx).isSome then s1
        else { s1 with tick := s1.tick + 1 }
      waitLoop o narrs segIdx fuel s2

/-- The `while time.time() - hold_start < content` maintenance loop, performing
`iters` poll iterations. -/
def holdLoop (o : Oracle) (narrs : List (Nat × Segment)) : Nat → St → St
  | 0, s => s
  | iters + 1, s =>
    let s1 := submitNext narrs (harvest o s)
    holdLoop o narrs iters { s1 with tick := s1.tick + 1 }

/-- `play_audio_file` call for a narration whose synthesis produced audio. -/
def playNarr (s : St) (segIdx : Nat) : St :=
  { s with
    trace := s.trace ++ [Event.play segIdx],
    playedNarrs := s.playedNarrs + 1 }

/-- A narration whose future raised: `processed_segments[idx]` was `None`, so
`if audio_file:` skips the sink call; playback position still advances. -/
def skipNarr (s : St) : St :=
  { s with playedNarrs := s.playedNarrs + 1 }

/-- The main playback loop over `enumerate(segments)`.  Returns the final state
and `false` when `play_audio_file` raised (the exception propagates out of the
loop), `none` when the wait loop's fuel ran out. -/
def mainLoop (o : Oracle) (narrs : List (Nat × Segment)) (fuel : Nat) :
    List (Nat × Segment) → St → Option (St × Bool)
  | [], s => some (s, true)
  | (segIdx, Segment.narration _) :: rest, s =>
    match waitLoop o narrs segIdx fuel s with
    | none => none
    | some s1 =>
      match lookupProc s1.processed segIdx with
      | some (some _) =>
        if o.sinkFail segIdx then some (playNarr (popProc s1 segIdx) segIdx, false)
        else mainLoop o narrs fuel rest (playNarr (popProc s1 segIdx) segIdx)
      | _ => mainLoop o narrs fuel rest (skipNarr (popProc s1 segIdx))
  | (segIdx, Segment.hold secs) :: rest, s =>
    mainLoop o narrs fuel rest
      (holdLoop o narrs (o.holdIters segIdx)
        { s with trace := s.trace ++ [Event.holdWait segIdx secs] })

structure RunResult where
  trace : List Event
  ok : Bool
  maxWindow : Nat
deriving DecidableEq, Repr

def initSt : St :=
  { pending := [], processed := [], nextToProcess := 0, tick := 0, trace := [],
    playedNarrs := 0, submittedCount := 0, maxWindow := 0 }

def narrFilter (l : List (Nat × Segment)) : List (Nat × Segment) :=
  l.filter (fun p => p.2.isNarration)

/-- `narration_segments = [(i, seg) for i, seg in enumerate(segments) if seg[0] == 'narration']`. -/
def narrationSegments (segments : List Segment) : List (Nat × Segment) :=
  narrFilter segments.enum

/-- State after the priming loop: `narration_segments[:buffer_size]` submitted
(the loop guard `i < len(narration_segments)` always holds on that slice),
then `next_to_process = buffer_size`. -/
def startSt (narrs : List (Nat × Segment)) (bufferSize : Nat) : St :=
  { (narrs.take bufferSize).foldl (fun s p => submitSeg p.1 s) initSt with
    nextToProcess := bufferSize }

/-- `run_yoga_session`: reading the session file is abstracted into the
`sessionText` argument; the rest follows the source line by line.  Priming,
then the main playback loop; on normal completion
`executor.shutdown(wait=True)` runs — on a playback exception it is never
reached (no try/finally in the source). -/
def run_yoga_session (o : Oracle) (sessionText : String) (bufferSize fuel : Nat) :
    Option RunResult :=
  let segments := parse_session sessionText
  let narrs := narrationSegments segments
  match mainLoop o narrs fuel segments.enum (startSt narrs bufferSize) with
  | some (s, ok) =>
    some { trace := s.trace ++ (if ok then [Event.shutdown] else []),
           ok := ok, maxWindow := s.maxWindow }
  | none => none

/-! ## Observations over traces -/

def Event.isPlayback : Event → Bool
  | .play _ => true
  | .holdWait _ _ => true
  | _ => false

/-- The playback timeline: narration plays and hold waits, in trace order. -/
def playbackEvents (t : List Event) : List Event :=
  t.filter Event.isPlayback

def submitIdx : Event → Option Nat
  | .submit i => some i
  | _ => none

/-- The synthesis submissions of a trace, as segment indices in trace order. -/
def submitEvents (t : List Event) : List Nat :=
  t.filterMap submitIdx

/-- The playback timeline the enumerated segments prescribe: one play per
narration (omitted when its synthesis failed), one hold wait per hold. -/
def expectedPlayback (o : Oracle) : List (Nat × Segment) → List Event
  | [] => []
  | (i, Segment.narration _) :: rest =>
    (if o.fail i then [] else [Event.play i]) ++ expectedPlayback o rest
  | (i, Segment.hold secs) :: rest => Event.holdWait i secs :: expectedPlayback o rest

/-- The full playback timeline in original segment order (no failures). -/
def segmentEvents : List (Nat × Segment) → List Event
  | [] => []
  | (i, Segment.narration _) :: rest => Event.play i :: segmentEvents rest
  | (i, Segment.hold secs) :: rest => Event.holdWait i secs :: segmentEvents rest

/-! ## Parser lemmas and parser claims -/

theorem scanAux_succ (fuel : Nat) (cs acc : List Char) :
    scanAux (fuel + 1) cs acc =
      match matchHoldAt cs with
      | some (n, u, rest) =>
        (if acc.isEmpty then [] else [Segment.narration (mkNarr acc)]) ++
          Segment.hold (unitSeconds n u) :: scanAux fuel rest []
      | none =>
        match cs with
        | [] => if acc.isEmpty then [] else [Segment.narration (mkNarr acc)]
        | c :: cs' => scanAux fuel cs' (acc ++ [c]) := rfl

/-- Every narration `scanAux` emits is the styled, quoted strip of a chunk that
is a contiguous span of the input (`acc` accumulates consecutive input
characters; match remainders are suffixes of the input). -/
theorem scanAux_narration_shape :
    ∀ fuel cs acc s, Segment.narration s ∈ scanAux fuel cs acc →
      ∃ chunk, List.IsInfix chunk (acc ++ cs) ∧ s = mkNarr chunk := by
  intro fuel
  induction fuel with
  | zero => intro cs acc s h; simp [scanAux] at h
  | succ fuel ih =>
    intro cs acc s h
    rw [scanAux_succ] at h
    cases hm : matchHoldAt cs with
    | some v =>
      obtain ⟨n, u, rest⟩ := v
      rw [hm] at h
      simp only [List.mem_append, List.mem_cons] at h
      rcases h with h | h | h
      · by_cases hacc : acc.isEmpty
        · simp [hacc] at h
        · simp only [hacc, if_neg, Bool.false_eq_true, ite_false, List.mem_singleton] at h
          obtain rfl : s = mkNarr acc := by
            cases h with
            | refl => rfl
          exact ⟨acc, ⟨[], cs, by simp⟩, rfl⟩
      · exact absurd h (by simp)
      · obtain ⟨chunk, hinf, hs⟩ := ih rest [] s h
        obtain ⟨pre, hpre, -⟩ := matchHoldAt_suffix hm
        refine ⟨chunk, ?_, hs⟩
        have h1 : List.IsInfix chunk rest := by simpa using hinf
        have h2 : List.IsInfix rest (acc ++ cs) := ⟨acc ++ pre, [], by simp [hpre, List.append_assoc]⟩
        exact h1.trans h2
    | none =>
      rw [hm] at h
      cases cs with
      | nil =>
        by_cases hacc : acc.isEmpty
        · simp [hacc] at h
        · simp only [hacc, Bool.false_eq_true, ite_false, List.mem_singleton] at h
          obtain rfl : s = mkNarr acc := by
            cases h with
            | refl => rfl
          exact ⟨acc, ⟨[], [], by simp⟩, rfl⟩
      | cons c cs' =>
        obtain ⟨chunk, hinf, hs⟩ := ih cs' (acc ++ [c]) s h
        refine ⟨chunk, ?_, hs⟩
        simpa [List.append_assoc] using hinf

/-- Claim C9: every hold segment `parse_session` returns has a strictly
positive duration — a matched hold tag with a zero count is dropped by the
final truthiness filter `[seg for seg in segments if seg[1]]`. -/
theorem C9_no_zero_duration_hold (text : String) (n : Nat)
    (h : Segment.hold n ∈ parse_session text) : 0 < n := by
  have ht := List.of_mem_filter h
  simp only [segTruthy, ne_eq, bne_iff_ne] at ht
  omega

def exTwoMin : String := "x<hold 2 minutes>y"

/-- Witness for C9: the session `exTwoMin` contains the hold segment of 120
seconds, and the theorem yields its positivity. -/
theorem C9_no_zero_duration_hold_witness : 0 < 120 :=
  C9_no_zero_duration_hold exTwoMin 120 (by decide)

/-- Claim C10: every narration segment `parse_session` returns carries the
instructor style prefix, followed by a contiguous span of the input text
stripped of surrounding whitespace and wrapped in single quotes; in particular
its content is never the empty string. -/
theorem C10_narration_content (text : String) (s : String)
    (h : Segment.narration s ∈ parse_session text) :
    (∃ chunk : List Char, List.IsInfix chunk text.data ∧ s = mkNarr chunk) ∧ s ≠ "" := by
  have hmem : Segment.narration s ∈ scanAux (text.data.length + 1) text.data [] :=
    List.mem_of_mem_filter h
  obtain ⟨chunk, hinf, hs⟩ := scanAux_narration_shape _ _ _ _ hmem
  refine ⟨⟨chunk, by simpa using hinf, hs⟩, ?_⟩
  subst hs
  intro hemp
  have hdata := congrArg String.data hemp
  simp [mkNarr] at hdata

def exSpacedHello : String := " hello "

/-- Witness for C10, at the session text `" hello "` and its single narration
segment. -/
theorem C10_narration_content_witness :
    (∃ chunk : List Char, List.IsInfix chunk exSpacedHello.data ∧
        mkNarr exSpacedHello.data = mkNarr chunk) ∧
      mkNarr exSpacedHello.data ≠ "" :=
  C10_narration_content exSpacedHello (mkNarr exSpacedHello.data) (by decide)

def exMalformed : String := "[[ not a list of records ]]"

/-- Counterexample for C8: an input that is not well-formed structured data in
any sense (not a list of records) is parsed successfully into a narration that
quotes the junk verbatim — no `MalformedSessionError` exists in the code and
no input makes parsing fail. -/
theorem C8_counterexample :
    parse_session exMalformed = [Segment.narration (mkNarr exMalformed.data)] := by
  decide

/-- Claim C8 (amended): parsing is a pure, total, synchronous function of the
input text; it never raises — every input string, well-formed or not, yields a
list whose members are all valid segments (a narration with nonempty content
or a hold with positive duration). -/
theorem C8_parse_total (text : String) (seg : Segment) (h : seg ∈ parse_session text) :
    (∃ s, seg = Segment.narration s ∧ s ≠ "") ∨ ∃ n, seg = Segment.hold n ∧ 0 < n := by
  have ht := List.of_mem_filter h
  cases seg with
  | narration s =>
    left
    refine ⟨s, rfl, ?_⟩
    simp only [segTruthy, Bool.not_eq_true'] at ht
    intro he
    subst he
    exact absurd ht (by decide)
  | hold n =>
    right
    simp only [segTruthy, ne_eq, bne_iff_ne] at ht
    exact ⟨n, rfl, by omega⟩

/-- Witness for C8 (amended), at the hold segment of `exTwoMin`. -/
theorem C8_parse_total_witness :
    (∃ s, Segment.hold 120 = Segment.narration s ∧ s ≠ "") ∨
      ∃ n, Segment.hold 120 = Segment.hold n ∧ 0 < n :=
  C8_parse_total exTwoMin (Segment.hold 120) (by decide)

def exBare30 : String := "<hold 30>"

/-- Counterexample for C4: the claim says a numeric-only duration with no unit
is treated as seconds (in particular that `30` yields a 30-second hold) and
that an unparseable duration yields a zero hold; the code's only duration
syntax is the hold tag, whose regex requires a unit, so `<hold 30>` is not
recognized at all: its text stays inside the narration and no hold of 30
seconds is produced. -/
theorem C4_counterexample :
    parse_session exBare30 = [Segment.narration (mkNarr exBare30.data)] ∧
      Segment.hold 30 ∉ parse_session exBare30 := by
  decide

def exHold5 : String := "<hold 5 seconds>"
def exHold2m : String := "<hold 2 minutes>"
def exHold1m : String := "<hold 1 minute>"
def exHoldCase : String := "<HOLD 3 Minutes>"
def exBanana : String := "<hold banana seconds>"

/-- Claim C4 (amended): duration parsing happens only inside hold tags
`<hold N unit>` with unit in {second, seconds, minute, minutes}
(case-insensitive, minutes multiplied by 60): `<hold 5 seconds>` yields 5,
`<hold 2 minutes>` yields 120, `<hold 1 minute>` yields 60 and
`<HOLD 3 Minutes>` yields 180; a tag without a recognized unit or with a
non-numeric count (`<hold 30>`, `<hold banana seconds>`) is not a duration at
all — its text remains narration content — and no error is ever raised. -/
theorem C4_hold_tag_durations :
    parse_session exHold5 = [Segment.hold 5] ∧
    parse_session exHold2m = [Segment.hold 120] ∧
    parse_session exHold1m = [Segment.hold 60] ∧
    parse_session exHoldCase = [Segment.hold 180] ∧
    parse_session exBare30 = [Segment.narration (mkNarr exBare30.data)] ∧
    parse_session exBanana = [Segment.narration (mkNarr exBanana.data)] := by
  decide

/-! ## Scheduler lemmas: traces appended by the maintenance loops -/

def onlySubmits (t : List Event) : Prop := ∀ e ∈ t, ∃ i, e = Event.submit i

theorem onlySubmits_nil : onlySubmits [] := by intro e he; simp at he

theorem onlySubmits_append {t1 t2 : List Event} (h1 : onlySubmits t1)
    (h2 : onlySubmits t2) : onlySubmits (t1 ++ t2) := by
  intro e he
  rcases List.mem_append.mp he with h | h
  exacts [h1 e h, h2 e h]

theorem playbackEvents_append (t1 t2 : List Event) :
    playbackEvents (t1 ++ t2) = playbackEvents t1 ++ playbackEvents t2 :=
  List.filter_append ..

theorem playbackEvents_onlySubmits {t : List Event} (h : onlySubmits t) :
    playbackEvents t = [] := by
  induction t with
  | nil => rfl
  | cons e t ih =>
    obtain ⟨i, rfl⟩ := h e (by simp)
    simp only [playbackEvents, List.filter_cons]
    have : Event.isPlayback (Event.submit i) = false := rfl
    rw [this]
    exact ih (fun e he => h e (by simp [he]))

theorem submitEvents_append (t1 t2 : List Event) :
    submitEvents (t1 ++ t2) = submitEvents t1 ++ submitEvents t2 :=
  List.filterMap_append ..

theorem harvest_trace (o : Oracle) (s : St) : (harvest o s).trace = s.trace := rfl

theorem harvest_ntp (o : Oracle) (s : St) :
    (harvest o s).nextToProcess = s.nextToProcess := rfl

theorem harvest_played (o : Oracle) (s : St) :
    (harvest o s).playedNarrs = s.playedNarrs := rfl

theorem submitNext_trace (narrs : List (Nat × Segment)) (s : St) :
    ∃ t, (submitNext narrs s).trace = s.trace ++ t ∧ onlySubmits t := by
  unfold submitNext
  cases narrs.get? s.nextToProcess with
  | some p =>
    refine ⟨[Event.submit p.1], rfl, ?_⟩
    intro e he
    simp only [List.mem_singleton] at he
    exact ⟨p.1, he⟩
  | none => exact ⟨[], by simp, onlySubmits_nil⟩

theorem submitNext_played (narrs : List (Nat × Segment)) (s : St) :
    (submitNext narrs s).playedNarrs = s.playedNarrs := by
  unfold submitNext
  cases narrs.get? s.nextToProcess <;> rfl

theorem submitNext_processed (narrs : List (Nat × Segment)) (s : St) :
    (submitNext narrs s).processed = s.processed := by
  unfold submitNext
  cases narrs.get? s.nextToProcess <;> rfl

theorem submitNext_ntp_ge (narrs : List (Nat × Segment)) (s : St) :
    s.nextToProcess ≤ (submitNext narrs s).nextToProcess := by
  unfold submitNext
  cases narrs.get? s.nextToProcess with
  | some p => exact Nat.le_succ _
  | none => exact Nat.le_refl _

/-! ## Scheduler lemmas: the results map holds exactly the oracle's verdicts -/

/-- Every entry of `processed_segments` records, for its segment index, the
audio artifact when the oracle says synthesis succeeded and `None`
(the exception case) when it says it failed. -/
def ProcInv (o : Oracle) (processed : List (Nat × Option Nat)) : Prop :=
  ∀ p ∈ processed, p.2 = if o.fail p.1 then none else some p.1

theorem ProcInv_harvest (o : Oracle) (s : St) (h : ProcInv o s.processed) :
    ProcInv o (harvest o s).processed := by
  intro p hp
  rcases List.mem_append.mp hp with hmem | hmem
  · exact h p hmem
  · obtain ⟨q, -, rfl⟩ := List.mem_map.mp hmem
    rfl

theorem ProcInv_filter (o : Oracle) {ps : List (Nat × Option Nat)}
    (h : ProcInv o ps) (f : Nat × Option Nat → Bool) :
    ProcInv o (ps.filter f) :=
  fun p hp => h p (List.mem_of_mem_filter hp)

theorem lookupProc_mem {ps : List (Nat × Option Nat)} {i : Nat} {r : Option Nat}
    (h : lookupProc ps i = some r) : (i, r) ∈ ps := by
  unfold lookupProc at h
  cases hf : ps.find? (fun p => p.1 == i) with
  | none => rw [hf] at h; exact Option.noConfusion h
  | some p =>
    rw [hf] at h
    simp only [Option.map_some', Option.some.injEq] at h
    have hp := List.mem_of_find?_eq_some hf
    have hpred := List.find?_some hf
    simp only [beq_iff_eq] at hpred
    obtain ⟨p1, p2⟩ := p
    simp only at hpred h
    subst hpred h
    exact hp

/-! ## Scheduler lemmas: the wait and hold loops -/

theorem waitLoop_spec (o : Oracle) (narrs : List (Nat × Segment)) (segIdx : Nat) :
    ∀ fuel s s', waitLoop o narrs segIdx fuel s = some s' →
      (∃ t, s'.trace = s.trace ++ t ∧ onlySubmits t) ∧
      s'.playedNarrs = s.playedNarrs ∧
      s.nextToProcess ≤ s'.nextToProcess ∧
      (lookupProc s'.processed segIdx).isSome ∧
      (ProcInv o s.processed → ProcInv o s'.processed) := by
  intro fuel
  induction fuel with
  | zero =>
    intro s s' h
    unfold waitLoop at h
    split at h
    · rename_i hsome
      obtain rfl : s = s' := by injection h
      exact ⟨⟨[], by simp, onlySubmits_nil⟩, rfl, Nat.le_refl _, hsome, id⟩
    · exact absurd h (by simp)
  | succ fuel ih =>
    intro s s' h
    unfold waitLoop at h
    split at h
    · rename_i hsome
      obtain rfl : s = s' := by injection h
      exact ⟨⟨[], by simp, onlySubmits_nil⟩, rfl, Nat.le_refl _, hsome, id⟩
    · obtain ⟨⟨t, htr, hsub⟩, hpl, hntp, hlook, hproc⟩ := ih _ _ h
      obtain ⟨t0, htr0, hsub0⟩ := submitNext_trace narrs (harvest o s)
      have hPI : ProcInv o s.processed →
          ProcInv o (submitNext narrs (harvest o s)).processed := by
        intro hp
        rw [submitNext_processed]
        exact ProcInv_harvest o s hp
      set s1 := submitNext narrs (harvest o s) with hs1
      have h2tr : (if (lookupProc s1.processed segIdx).isSome then s1
          else { s1 with tick := s1.tick + 1 }).trace = s1.trace := by
        split <;> rfl
      have h2pl : (if (lookupProc s1.processed segIdx).isSome then s1
          else { s1 with tick := s1.tick + 1 }).playedNarrs = s1.playedNarrs := by
        split <;> rfl
      have h2ntp : (if (lookupProc s1.processed segIdx).isSome then s1
          else { s1 with tick := s1.tick + 1 }).nextToProcess = s1.nextToProcess := by
        split <;> rfl
      have h2proc : (if (lookupProc s1.processed segIdx).isSome then s1
          else { s1 with tick := s1.tick + 1 }).processed = s1.processed := by
        split <;> rfl
      refine ⟨⟨t0 ++ t, ?_, onlySubmits_append hsub0 hsub⟩, ?_, ?_, hlook, ?_⟩
      · rw [htr, h2tr, htr0, harvest_trace, List.append_assoc]
      · rw [hpl, h2pl, submitNext_played, harvest_played]
      · have hle : s.nextToProcess ≤ s1.nextToProcess := by
          calc s.nextToProcess = (harvest o s).nextToProcess := (harvest_ntp o s).symm
            _ ≤ s1.nextToProcess := submitNext_ntp_ge ..
        exact le_trans (by rw [h2ntp]; exact hle) hntp
      · intro hp
        refine hproc ?_
        rw [h2proc]
        exact hPI hp

theorem holdLoop_spec (o : Oracle) (narrs : List (Nat × Segment)) :
    ∀ iters s,
      (∃ t, (holdLoop o narrs iters s).trace = s.trace ++ t ∧ onlySubmits t) ∧
      (holdLoop o narrs iters s).playedNarrs = s.playedNarrs ∧
      s.nextToProcess ≤ (holdLoop o narrs iters s).nextToProcess ∧
      (ProcInv o s.processed → ProcInv o (holdLoop o narrs iters s).processed) := by
  intro iters
  induction iters with
  | zero =>
    intro s
    exact ⟨⟨[], by rw [holdLoop]; simp, onlySubmits_nil⟩, rfl, Nat.le_refl _, id⟩
  | succ iters ih =>
    intro s
    obtain ⟨⟨t, htr, hsub⟩, hpl, hntp, hproc⟩ :=
      ih { submitNext narrs (harvest o s) with
             tick := (submitNext narrs (harvest o s)).tick + 1 }
    obtain ⟨t0, htr0, hsub0⟩ := submitNext_trace narrs (harvest o s)
    refine ⟨⟨t0 ++ t, ?_, onlySubmits_append hsub0 hsub⟩, ?_, ?_, ?_⟩
    · show (holdLoop o narrs (iters + 1) s).trace = _
      rw [holdLoop]
      rw [htr]
      show (submitNext narrs (harvest o s)).trace ++ t = _
      rw [htr0, harvest_trace, List.append_assoc]
    · show (holdLoop o narrs (iters + 1) s).playedNarrs = _
      rw [holdLoop, hpl]
      show (submitNext narrs (harvest o s)).playedNarrs = _
      rw [submitNext_played, harvest_played]
    · show s.nextToProcess ≤ (holdLoop o narrs (iters + 1) s).nextToProcess
      rw [holdLoop]
      refine le_trans ?_ hntp
      show s.nextToProcess ≤ (submitNext narrs (harvest o s)).nextToProcess
      calc s.nextToProcess = (harvest o s).nextToProcess := (harvest_ntp o s).symm
        _ ≤ _ := submitNext_ntp_ge ..
    · intro hp
      show ProcInv o (holdLoop o narrs (iters + 1) s).processed
      rw [holdLoop]
      refine hproc ?_
      show ProcInv o (submitNext narrs (harvest o s)).processed
      rw [submitNext_processed]
      exact ProcInv_harvest o s hp

/-! ## Scheduler lemmas: the main playback loop -/

theorem mainLoop_nil (o : Oracle) (narrs : List (Nat × Segment)) (fuel : Nat) (s : St) :
    mainLoop o narrs fuel [] s = some (s, true) := rfl

theorem mainLoop_narr (o : Oracle) (narrs : List (Nat × Segment)) (fuel : Nat)
    (segIdx : Nat) (c : String) (rest : List (Nat × Segment)) (s : St) :
    mainLoop o narrs fuel ((segIdx, Segment.narration c) :: rest) s =
      match waitLoop o narrs segIdx fuel s with
      | none => none
      | some s1 =>
        match lookupProc s1.processed segIdx with
        | some (some _) =>
          if o.sinkFail segIdx then some (playNarr (popProc s1 segIdx) segIdx, false)
          else mainLoop o narrs fuel rest (playNarr (popProc s1 segIdx) segIdx)
        | _ => mainLoop o narrs fuel rest (skipNarr (popProc s1 segIdx)) := rfl

theorem mainLoop_hold (o : Oracle) (narrs : List (Nat × Segment)) (fuel : Nat)
    (segIdx secs : Nat) (rest : List (Nat × Segment)) (s : St) :
    mainLoop o narrs fuel ((segIdx, Segment.hold secs) :: rest) s =
      mainLoop o narrs fuel rest
        (holdLoop o narrs (o.holdIters segIdx)
          { s with trace := s.trace ++ [Event.holdWait segIdx secs] }) := rfl

theorem mainLoop_playback (o : Oracle) (narrs : List (Nat × Segment)) (fuel : Nat)
    (hsink : ∀ j, o.sinkFail j = false) :
    ∀ l s out, ProcInv o s.processed →
      mainLoop o narrs fuel l s = some out →
      out.2 = true ∧
      playbackEvents out.1.trace = playbackEvents s.trace ++ expectedPlayback o l := by
  intro l
  induction l with
  | nil =>
    intro s out hPI h
    rw [mainLoop_nil] at h
    obtain rfl : (s, true) = out := by injection h
    simp [expectedPlayback]
  | cons hd rest ih =>
    obtain ⟨segIdx, seg⟩ := hd
    cases seg with
    | narration c =>
      intro s out hPI h
      rw [mainLoop_narr] at h
      split at h
      · exact absurd h (by simp)
      · rename_i s1 hw
        obtain ⟨⟨t, htr, hsub⟩, -, -, hlook, hPIpres⟩ :=
          waitLoop_spec o narrs segIdx fuel s s1 hw
        have hPI1 : ProcInv o s1.processed := hPIpres hPI
        obtain ⟨r, hr⟩ := Option.isSome_iff_exists.mp hlook
        have hval := hPI1 _ (lookupProc_mem hr)
        simp only at hval
        have hpb1 : playbackEvents s1.trace = playbackEvents s.trace := by
          rw [htr, playbackEvents_append, playbackEvents_onlySubmits hsub,
            List.append_nil]
        split at h
        · rename_i a heq
          rw [heq] at hr
          obtain rfl : some a = r := by injection hr
          have hf : o.fail segIdx = false := by
            by_contra hc
            rw [Bool.not_eq_false] at hc
            rw [if_pos hc] at hval
            exact Option.noConfusion hval
          rw [hsink segIdx] at h
          simp only [Bool.false_eq_true, if_false] at h
          have hPI2 : ProcInv o (playNarr (popProc s1 segIdx) segIdx).processed :=
            ProcInv_filter o hPI1 _
          obtain ⟨hok, hpb⟩ := ih _ _ hPI2 h
          refine ⟨hok, ?_⟩
          rw [hpb]
          show playbackEvents (s1.trace ++ [Event.play segIdx]) ++ _ = _
          rw [playbackEvents_append, hpb1, expectedPlayback, if_neg (by simp [hf])]
          show _ ++ playbackEvents [Event.play segIdx] ++ _ = _
          have hone : playbackEvents [Event.play segIdx] = [Event.play segIdx] := rfl
          rw [hone, List.append_assoc]
        · rename_i hne
          have hf : o.fail segIdx = true := by
            by_contra hc
            rw [Bool.not_eq_true] at hc
            rw [if_neg (by simp [hc])] at hval
            subst hval
            exact hne segIdx hr
          have hPI2 : ProcInv o (skipNarr (popProc s1 segIdx)).processed :=
            ProcInv_filter o hPI1 _
          obtain ⟨hok, hpb⟩ := ih _ _ hPI2 h
          refine ⟨hok, ?_⟩
          rw [hpb]
          show playbackEvents s1.trace ++ _ = _
          rw [hpb1, expectedPlayback, if_pos (by simp [hf])]
          simp
    | hold secs =>
      intro s out hPI h
      rw [mainLoop_hold] at h
      obtain ⟨⟨t, htr, hsub⟩, -, -, hPIpres⟩ :=
        holdLoop_spec o narrs (o.holdIters segIdx)
          { s with trace := s.trace ++ [Event.holdWait segIdx secs] }
      have hPI2 : ProcInv o (holdLoop o narrs (o.holdIters segIdx)
          { s with trace := s.trace ++ [Event.holdWait segIdx secs] }).processed :=
        hPIpres hPI
      obtain ⟨hok, hpb⟩ := ih _ _ hPI2 h
      refine ⟨hok, ?_⟩
      rw [hpb, htr]
      show playbackEvents (s.trace ++ [Event.holdWait segIdx secs] ++ t) ++ _ = _
      rw [playbackEvents_append, playbackEvents_append,
        playbackEvents_onlySubmits hsub, List.append_nil, expectedPlayback]
      have : playbackEvents [Event.holdWait segIdx secs] = [Event.holdWait segIdx secs] := rfl
      rw [this, List.append_assoc]
      rfl

/-! ## Run-level lemmas -/

theorem expectedPlayback_no_fail (o : Oracle) (hfail : ∀ i, o.fail i = false) :
    ∀ l, expectedPlayback o l = segmentEvents l := by
  intro l
  induction l with
  | nil => rfl
  | cons hd rest ih =>
    obtain ⟨i, seg⟩ := hd
    cases seg with
    | narration c =>
      rw [expectedPlayback, segmentEvents, hfail i, ih]
      simp
    | hold secs => rw [expectedPlayback, segmentEvents, ih]

theorem onlySubmits_map (L : List (Nat × Segment)) :
    onlySubmits (L.map (fun p => Event.submit p.1)) := by
  intro e he
  obtain ⟨p, -, rfl⟩ := List.mem_map.mp he
  exact ⟨p.1, rfl⟩

theorem foldl_submitSeg_trace :
    ∀ (L : List (Nat × Segment)) (s : St),
      (L.foldl (fun s p => submitSeg p.1 s) s).trace =
        s.trace ++ L.map (fun p => Event.submit p.1) := by
  intro L
  induction L with
  | nil => intro s; simp
  | cons p L ih =>
    intro s
    rw [List.foldl_cons, ih]
    show (submitSeg p.1 s).trace ++ _ = _
    show s.trace ++ [Event.submit p.1] ++ _ = _
    simp

theorem foldl_submitSeg_processed :
    ∀ (L : List (Nat × Segment)) (s : St),
      (L.foldl (fun s p => submitSeg p.1 s) s).processed = s.processed := by
  intro L
  induction L with
  | nil => intro s; rfl
  | cons p L ih => intro s; rw [List.foldl_cons, ih]; rfl

theorem foldl_submitSeg_played :
    ∀ (L : List (Nat × Segment)) (s : St),
      (L.foldl (fun s p => submitSeg p.1 s) s).playedNarrs = s.playedNarrs := by
  intro L
  induction L with
  | nil => intro s; rfl
  | cons p L ih => intro s; rw [List.foldl_cons, ih]; rfl

theorem foldl_submitSeg_tick :
    ∀ (L : List (Nat × Segment)) (s : St),
      (L.foldl (fun s p => submitSeg p.1 s) s).tick = s.tick := by
  intro L
  induction L with
  | nil => intro s; rfl
  | cons p L ih => intro s; rw [List.foldl_cons, ih]; rfl

theorem foldl_submitSeg_pending :
    ∀ (L : List (Nat × Segment)) (s : St),
      (L.foldl (fun s p => submitSeg p.1 s) s).pending =
        s.pending ++ L.map (fun p => (p.1, s.tick)) := by
  intro L
  induction L with
  | nil => intro s; simp
  | cons p L ih =>
    intro s
    rw [List.foldl_cons, ih]
    show (submitSeg p.1 s).pending ++ L.map (fun q => (q.1, (submitSeg p.1 s).tick)) = _
    show s.pending ++ [(p.1, s.tick)] ++ L.map (fun q => (q.1, s.tick)) = _
    simp

theorem startSt_processed (narrs : List (Nat × Segment)) (b : Nat) :
    (startSt narrs b).processed = [] := by
  show ((narrs.take b).foldl (fun s p => submitSeg p.1 s) initSt).processed = []
  rw [foldl_submitSeg_processed]
  rfl

theorem startSt_trace (narrs : List (Nat × Segment)) (b : Nat) :
    (startSt narrs b).trace = (narrs.take b).map (fun p => Event.submit p.1) := by
  show ((narrs.take b).foldl (fun s p => submitSeg p.1 s) initSt).trace = _
  rw [foldl_submitSeg_trace]
  rfl

theorem startSt_played (narrs : List (Nat × Segment)) (b : Nat) :
    (startSt narrs b).playedNarrs = 0 := by
  show ((narrs.take b).foldl (fun s p => submitSeg p.1 s) initSt).playedNarrs = 0
  rw [foldl_submitSeg_played]
  rfl

theorem startSt_ntp (narrs : List (Nat × Segment)) (b : Nat) :
    (startSt narrs b).nextToProcess = b := rfl

theorem startSt_pending (narrs : List (Nat × Segment)) (b : Nat) :
    (startSt narrs b).pending = (narrs.take b).map (fun p => (p.1, 0)) := by
  show ((narrs.take b).foldl (fun s p => submitSeg p.1 s) initSt).pending = _
  rw [foldl_submitSeg_pending]
  rfl

/-- `run_yoga_session` unfolded (definitional). -/
theorem run_eq (o : Oracle) (text : String) (bufferSize fuel : Nat) :
    run_yoga_session o text bufferSize fuel =
      match mainLoop o (narrationSegments (parse_session text)) fuel
          (parse_session text).enum
          (startSt (narrationSegments (parse_session text)) bufferSize) with
      | some (s, ok) =>
        some { trace := s.trace ++ (if ok then [Event.shutdown] else []),
               ok := ok, maxWindow := s.maxWindow }
      | none => none := rfl

theorem play_not_mem_expectedPlayback (o : Oracle) (i : Nat) (hfi : o.fail i = true) :
    ∀ l, Event.play i ∉ expectedPlayback o l := by
  intro l
  induction l with
  | nil => simp [expectedPlayback]
  | cons hd rest ih =>
    obtain ⟨j, seg⟩ := hd
    cases seg with
    | narration c =>
      rw [expectedPlayback]
      intro hmem
      rcases List.mem_append.mp hmem with hm | hm
      · split at hm
        · simp at hm
        · rename_i hj
          simp only [List.mem_singleton, Event.play.injEq] at hm
          subst hm
          exact hj hfi
      · exact ih hm
    | hold secs =>
      rw [expectedPlayback]
      intro hmem
      rcases List.mem_cons.mp hmem with hm | hm
      · exact Event.noConfusion hm
      · exact ih hm

/-! ## Claims about the scheduler -/

/-- Claim C2: for every session text and every completion order of the backend
(any latency assignment, i.e. any oracle with no synthesis and no sink
failures), a terminating run's playback events — narration plays and hold
waits — are exactly the parsed session's segments in their original index
order. -/
theorem C2_playback_order (o : Oracle) (text : String) (bufferSize fuel : Nat)
    (res : RunResult)
    (hfail : ∀ i, o.fail i = false) (hsink : ∀ i, o.sinkFail i = false)
    (h : run_yoga_session o text bufferSize fuel = some res) :
    playbackEvents res.trace = segmentEvents (parse_session text).enum := by
  rw [run_eq] at h
  split at h
  · rename_i s ok hm
    have hPI0 : ProcInv o (startSt (narrationSegments (parse_session text))
        bufferSize).processed := by
      rw [startSt_processed]
      intro p hp
      exact absurd hp (by simp)
    obtain ⟨hok, hpb⟩ := mainLoop_playback o _ fuel hsink _ _ _ hPI0 hm
    simp only at hok
    subst hok
    injection h with hres
    subst hres
    show playbackEvents (s.trace ++ (if true then [Event.shutdown] else [])) = _
    rw [if_pos rfl, playbackEvents_append]
    have hsd : playbackEvents [Event.shutdown] = [] := rfl
    rw [hsd, List.append_nil]
    rw [hpb, startSt_trace,
      playbackEvents_onlySubmits (onlySubmits_map _), List.nil_append]
    exact expectedPlayback_no_fail o hfail _
  · exact absurd h (by simp)

def tC2 : String := "Hi<hold 1 second>Bye"

def oC2 : Oracle :=
  { lat := fun _ => 0, fail := fun _ => false, sinkFail := fun _ => false,
    holdIters := fun _ => 1 }

def rC2 : RunResult :=
  { trace := [Event.submit 0, Event.submit 2, Event.play 0, Event.holdWait 1 1,
      Event.play 2, Event.shutdown],
    ok := true, maxWindow := 2 }

/-- Witness for C2: a concrete terminating run (instant completions,
buffer 2) whose playback events are the segment order. -/
theorem C2_playback_order_witness :
    playbackEvents rC2.trace = segmentEvents (parse_session tC2).enum :=
  C2_playback_order oC2 tC2 2 5 rC2 (fun _ => rfl) (fun _ => rfl) (by decide)

/-- Claim C5: a synthesis failure for segment `i` is isolated — in any
terminating run whose playback sink never fails, the run still completes
(`ok`, reaching worker-pool shutdown), the sink is never called for index `i`
(no `play i` event), and the playback timeline is exactly the expected one for
the whole session, in which only failed narrations are skipped. -/
theorem C5_synthesis_failure_isolated (o : Oracle) (text : String)
    (bufferSize fuel : Nat) (res : RunResult) (i : Nat)
    (hsink : ∀ j, o.sinkFail j = false)
    (hfi : o.fail i = true)
    (h : run_yoga_session o text bufferSize fuel = some res) :
    res.ok = true ∧ Event.play i ∉ res.trace ∧
      playbackEvents res.trace = expectedPlayback o (parse_session text).enum := by
  rw [run_eq] at h
  split at h
  · rename_i s ok hm
    have hPI0 : ProcInv o (startSt (narrationSegments (parse_session text))
        bufferSize).processed := by
      rw [startSt_processed]
      intro p hp
      exact absurd hp (by simp)
    obtain ⟨hok, hpb⟩ := mainLoop_playback o _ fuel hsink _ _ _ hPI0 hm
    simp only at hok
    subst hok
    injection h with hres
    subst hres
    have hple : playbackEvents (s.trace ++ (if true then [Event.shutdown] else [])) =
        expectedPlayback o (parse_session text).enum := by
      rw [if_pos rfl, playbackEvents_append]
      have hsd : playbackEvents [Event.shutdown] = [] := rfl
      rw [hsd, List.append_nil]
      rw [hpb, startSt_trace,
        playbackEvents_onlySubmits (onlySubmits_map _), List.nil_append]
    refine ⟨rfl, ?_, hple⟩
    intro hmem
    have hpmem : Event.play i ∈ playbackEvents
        (s.trace ++ (if true then [Event.shutdown] else [])) :=
      List.mem_filter.mpr ⟨hmem, rfl⟩
    rw [hple] at hpmem
    exact play_not_mem_expectedPlayback o i hfi _ hpmem
  · exact absurd h (by simp)

def tC5 : String := "Hi<hold 1 second>Bye"

def oC5 : Oracle :=
  { lat := fun _ => 0, fail := fun i => i == 0, sinkFail := fun _ => false,
    holdIters := fun _ => 1 }

def rC5 : RunResult :=
  { trace := [Event.submit 0, Event.submit 2, Event.holdWait 1 1,
      Event.play 2, Event.shutdown],
    ok := true, maxWindow := 2 }

/-- Witness for C5: a concrete run in which synthesis of segment 0 fails; the
run completes, segment 0 is never played, and the rest of the session is
processed in order. -/
theorem C5_synthesis_failure_isolated_witness :
    rC5.ok = true ∧ Event.play 0 ∉ rC5.trace ∧
      playbackEvents rC5.trace = expectedPlayback oC5 (parse_session tC5).enum :=
  C5_synthesis_failure_isolated oC5 tC5 2 5 rC5 0 (fun _ => rfl) rfl (by decide)

/-! ## Trace extension through the main loop -/

def noShutdown (t : List Event) : Prop := Event.shutdown ∉ t

theorem noShutdown_append {t1 t2 : List Event} (h1 : noShutdown t1)
    (h2 : noShutdown t2) : noShutdown (t1 ++ t2) := by
  intro hm
  rcases List.mem_append.mp hm with hm | hm
  exacts [h1 hm, h2 hm]

theorem onlySubmits_noShutdown {t : List Event} (h : onlySubmits t) : noShutdown t := by
  intro hmem
  obtain ⟨i, heq⟩ := h _ hmem
  exact Event.noConfusion heq

theorem noShutdown_play (i : Nat) : noShutdown [Event.play i] := by
  intro hm
  simp [noShutdown] at hm

theorem noShutdown_holdWait (i secs : Nat) : noShutdown [Event.holdWait i secs] := by
  intro hm
  simp [noShutdown] at hm

theorem mainLoop_trace_ext (o : Oracle) (narrs : List (Nat × Segment)) (fuel : Nat) :
    ∀ l s out, mainLoop o narrs fuel l s = some out →
      ∃ t, out.1.trace = s.trace ++ t ∧ noShutdown t := by
  intro l
  induction l with
  | nil =>
    intro s out h
    rw [mainLoop_nil] at h
    injection h with h'
    subst h'
    exact ⟨[], by simp, by intro hm; simp at hm⟩
  | cons hd rest ih =>
    obtain ⟨segIdx, seg⟩ := hd
    cases seg with
    | narration c =>
      intro s out h
      rw [mainLoop_narr] at h
      split at h
      · exact absurd h (by simp)
      · rename_i s1 hw
        obtain ⟨⟨t0, htr0, hsub0⟩, -, -, -, -⟩ :=
          waitLoop_spec o narrs segIdx fuel s s1 hw
        have hns0 : noShutdown t0 := onlySubmits_noShutdown hsub0
        split at h
        · rename_i a heq
          split at h
          · injection h with h'
            subst h'
            refine ⟨t0 ++ [Event.play segIdx], ?_, noShutdown_append hns0 (noShutdown_play _)⟩
            show s1.trace ++ [Event.play segIdx] = _
            rw [htr0, List.append_assoc]
          · obtain ⟨t1, htr1, hns1⟩ := ih _ _ h
            refine ⟨t0 ++ [Event.play segIdx] ++ t1, ?_,
              noShutdown_append (noShutdown_append hns0 (noShutdown_play _)) hns1⟩
            rw [htr1]
            show s1.trace ++ [Event.play segIdx] ++ t1 = _
            rw [htr0]
            simp [List.append_assoc]
        · obtain ⟨t1, htr1, hns1⟩ := ih _ _ h
          refine ⟨t0 ++ t1, ?_, noShutdown_append hns0 hns1⟩
          rw [htr1]
          show s1.trace ++ t1 = _
          rw [htr0, List.append_assoc]
    | hold secs =>
      intro s out h
      rw [mainLoop_hold] at h
      obtain ⟨⟨t0, htr0, hsub0⟩, -, -, -⟩ :=
        holdLoop_spec o narrs (o.holdIters segIdx)
          { s with trace := s.trace ++ [Event.holdWait segIdx secs] }
      obtain ⟨t1, htr1, hns1⟩ := ih _ _ h
      refine ⟨[Event.holdWait segIdx secs] ++ t0 ++ t1, ?_,
        noShutdown_append (noShutdown_append (noShutdown_holdWait segIdx secs)
          (onlySubmits_noShutdown hsub0)) hns1⟩
      rw [htr1, htr0]
      show s.trace ++ [Event.holdWait segIdx secs] ++ t0 ++ t1 = _
      simp [List.append_assoc]

/-- A run of the main loop that ends with `false` ended inside the playback
call of a segment on which the sink fails: its trace stops right after that
`play` event. -/
theorem mainLoop_fail_shape (o : Oracle) (narrs : List (Nat × Segment)) (fuel : Nat) :
    ∀ l s s', mainLoop o narrs fuel l s = some (s', false) →
      ∃ t i, s'.trace = s.trace ++ t ++ [Event.play i] ∧ o.sinkFail i = true ∧
        noShutdown t := by
  intro l
  induction l with
  | nil =>
    intro s s' h
    rw [mainLoop_nil] at h
    injection h with h'
    exact absurd (congrArg Prod.snd h') (by simp)
  | cons hd rest ih =>
    obtain ⟨segIdx, seg⟩ := hd
    cases seg with
    | narration c =>
      intro s s' h
      rw [mainLoop_narr] at h
      split at h
      · exact absurd h (by simp)
      · rename_i s1 hw
        obtain ⟨⟨t0, htr0, hsub0⟩, -, -, -, -⟩ :=
          waitLoop_spec o narrs segIdx fuel s s1 hw
        have hns0 : noShutdown t0 := onlySubmits_noShutdown hsub0
        split at h
        · rename_i a heq
          split at h
          · rename_i hsf
            injection h with h'
            have hs' : playNarr (popProc s1 segIdx) segIdx = s' :=
              congrArg Prod.fst h'
            subst hs'
            refine ⟨t0, segIdx, ?_, hsf, hns0⟩
            show s1.trace ++ [Event.play segIdx] = _
            rw [htr0]
          · obtain ⟨t1, i, htr1, hsf, hns1⟩ := ih _ _ h
            refine ⟨t0 ++ [Event.play segIdx] ++ t1, i, ?_, hsf,
              noShutdown_append (noShutdown_append hns0 (noShutdown_play _)) hns1⟩
            rw [htr1]
            show (playNarr (popProc s1 segIdx) segIdx).trace ++ t1 ++ _ = _
            show s1.trace ++ [Event.play segIdx] ++ t1 ++ _ = _
            rw [htr0]
            simp [List.append_assoc]
        · obtain ⟨t1, i, htr1, hsf, hns1⟩ := ih _ _ h
          refine ⟨t0 ++ t1, i, ?_, hsf, noShutdown_append hns0 hns1⟩
          rw [htr1]
          show s1.trace ++ t1 ++ _ = _
          rw [htr0]
          simp [List.append_assoc]
    | hold secs =>
      intro s s' h
      rw [mainLoop_hold] at h
      obtain ⟨⟨t0, htr0, hsub0⟩, -, -, -⟩ :=
        holdLoop_spec o narrs (o.holdIters segIdx)
          { s with trace := s.trace ++ [Event.holdWait segIdx secs] }
      obtain ⟨t1, i, htr1, hsf, hns1⟩ := ih _ _ h
      refine ⟨[Event.holdWait segIdx secs] ++ t0 ++ t1, i, ?_, hsf,
        noShutdown_append (noShutdown_append (noShutdown_holdWait segIdx secs)
          (onlySubmits_noShutdown hsub0)) hns1⟩
      rw [htr1, htr0]
      show s.trace ++ [Event.holdWait segIdx secs] ++ t0 ++ t1 ++ _ = _
      simp [List.append_assoc]

/-- Claim C6: when the session has at least `buffer_size` narration segments,
the run's trace begins with the submissions of the first `buffer_size`
narration segments (counted among narrations, by segment index, in order) —
they all happen before any playback or hold wait event. -/
theorem C6_priming (o : Oracle) (text : String) (bufferSize fuel : Nat)
    (res : RunResult)
    (_hb : bufferSize ≤ (narrationSegments (parse_session text)).length)
    (h : run_yoga_session o text bufferSize fuel = some res) :
    ∃ restTrace, res.trace =
      ((narrationSegments (parse_session text)).take bufferSize).map
        (fun p => Event.submit p.1) ++ restTrace := by
  rw [run_eq] at h
  split at h
  · rename_i s ok hm
    injection h with hres
    subst hres
    obtain ⟨t, htr, -⟩ := mainLoop_trace_ext o _ fuel _ _ _ hm
    refine ⟨t ++ (if ok then [Event.shutdown] else []), ?_⟩
    show s.trace ++ _ = _
    rw [htr, startSt_trace]
    simp [List.append_assoc]
  · exact absurd h (by simp)

/-- Witness for C6: the concrete run `rC2` of session `tC2` with buffer 2
begins with the submissions of both narrations. -/
theorem C6_priming_witness :
    ∃ restTrace, rC2.trace =
      ((narrationSegments (parse_session tC2)).take 2).map
        (fun p => Event.submit p.1) ++ restTrace :=
  C6_priming oC2 tC2 2 5 rC2 (by decide) (by decide)

def oC7 : Oracle :=
  { lat := fun _ => 0, fail := fun _ => false, sinkFail := fun i => i == 0,
    holdIters := fun _ => 1 }

def rC7 : RunResult :=
  { trace := [Event.submit 0, Event.submit 2, Event.play 0],
    ok := false, maxWindow := 2 }

/-- Counterexample for C7: in a run whose playback sink fails on segment 0 the
error is fatal and nothing later is played or waited on — but, contrary to the
claim, worker-pool teardown is NOT attempted: the trace contains no `shutdown`
event, because `executor.shutdown(wait=True)` is not in a finally block and
the exception bypasses it. -/
theorem C7_counterexample :
    run_yoga_session oC7 tC2 2 10 = some rC7 ∧ Event.shutdown ∉ rC7.trace := by
  decide

/-- Claim C7 (amended): when the playback sink fails on a segment's audio, the
error propagates out of the scheduler and terminates the run immediately — the
trace ends at the failing `play` event, so no later segment is played or
waited on — and worker-pool teardown is NOT attempted (no `shutdown` in the
trace): `executor.shutdown` is only reached on normal completion. -/
theorem C7_playback_error_fatal (o : Oracle) (text : String)
    (bufferSize fuel : Nat) (res : RunResult)
    (h : run_yoga_session o text bufferSize fuel = some res)
    (hko : res.ok = false) :
    ∃ t i, res.trace = t ++ [Event.play i] ∧ o.sinkFail i = true ∧
      Event.shutdown ∉ res.trace := by
  rw [run_eq] at h
  split at h
  · rename_i s ok hm
    injection h with hres
    subst hres
    have hok : ok = false := hko
    subst hok
    obtain ⟨t, i, htr, hsf, hns⟩ := mainLoop_fail_shape o _ fuel _ _ _ hm
    have htrace : (s.trace ++ (if false then [Event.shutdown] else [])) = s.trace := by
      simp
    refine ⟨((narrationSegments (parse_session text)).take bufferSize).map
        (fun p => Event.submit p.1) ++ t, i, ?_, hsf, ?_⟩
    · show s.trace ++ (if false then [Event.shutdown] else []) = _
      rw [htrace, htr, startSt_trace]
    · show Event.shutdown ∉ s.trace ++ (if false then [Event.shutdown] else [])
      rw [htrace, htr, startSt_trace]
      intro hmem
      rcases List.mem_append.mp hmem with hmem | hmem
      · rcases List.mem_append.mp hmem with hmem | hmem
        · exact onlySubmits_noShutdown (onlySubmits_map _) hmem
        · exact hns hmem
      · exact noShutdown_play i hmem
  · exact absurd h (by simp)

/-- Witness for C7 (amended), at the concrete sink-failure run `rC7`. -/
theorem C7_playback_error_fatal_witness :
    ∃ t i, rC7.trace = t ++ [Event.play i] ∧ oC7.sinkFail i = true ∧
      Event.shutdown ∉ rC7.trace :=
  C7_playback_error_fatal oC7 tC2 2 10 rC7 (by decide) rfl

def tC1 : String := "Breathe in.<hold 1 second>Breathe out.<hold 1 second>Rest."

def oC1 : Oracle :=
  { lat := fun _ => 5, fail := fun _ => false, sinkFail := fun _ => false,
    holdIters := fun _ => 1 }

/-- Claim C1 fails on the code: with `buffer_size = 1`, a session of three
narrations and a first synthesis that takes 5 poll ticks, the wait loop
submits one further narration on every poll iteration with no bound check
(`if next_to_process < len(narration_segments)` is the only guard), so all
three narrations are in flight while none has been played: the maximal window
`next_unsubmitted_index - next_unplayed_narration_index` (ghost-tracked as
`maxWindow` at each submission) reaches 3, exceeding `buffer_size = 1` and
also the transient allowance `buffer_size + 1`. -/
theorem C1_window_exceeds_buffer :
    (run_yoga_session oC1 tC1 1 20).map RunResult.maxWindow = some 3 ∧ 1 + 1 < 3 := by
  decide

/-! ## Submission invariants (claim C3) -/

/-- The submissions made so far are exactly the first `next_to_process`
narration entries, in order. -/
def SubmitInv (narrs : List (Nat × Segment)) (s : St) : Prop :=
  submitEvents s.trace = (narrs.take s.nextToProcess).map Prod.fst

/-- Every index in `future_to_index` or `processed_segments` was submitted,
i.e. is among the first `next_to_process` narration indices. -/
def KeysInv (narrs : List (Nat × Segment)) (s : St) : Prop :=
  ∀ i, (i ∈ s.pending.map Prod.fst ∨ i ∈ s.processed.map Prod.fst) →
    i ∈ (narrs.take s.nextToProcess).map Prod.fst

theorem SubmitInv_harvest (o : Oracle) (narrs : List (Nat × Segment)) (s : St)
    (h : SubmitInv narrs s) : SubmitInv narrs (harvest o s) := h

theorem KeysInv_harvest (o : Oracle) (narrs : List (Nat × Segment)) (s : St)
    (h : KeysInv narrs s) : KeysInv narrs (harvest o s) := by
  intro i hi
  apply h i
  rcases hi with hi | hi
  · left
    obtain ⟨p, hp, rfl⟩ := List.mem_map.mp hi
    exact List.mem_map.mpr ⟨p, List.mem_of_mem_filter hp, rfl⟩
  · obtain ⟨p, hp, rfl⟩ := List.mem_map.mp hi
    rcases List.mem_append.mp hp with hp | hp
    · exact Or.inr (List.mem_map.mpr ⟨p, hp, rfl⟩)
    · obtain ⟨q, hq, rfl⟩ := List.mem_map.mp hp
      exact Or.inl (List.mem_map.mpr ⟨q, List.mem_of_mem_filter hq, rfl⟩)

theorem take_map_subset_succ (narrs : List (Nat × Segment)) (n : Nat) :
    ∀ x, x ∈ (narrs.take n).map Prod.fst → x ∈ (narrs.take (n + 1)).map Prod.fst := by
  intro x hx
  rw [List.take_succ, List.map_append]
  exact List.mem_append_left _ hx

theorem SubmitInv_submitNext (narrs : List (Nat × Segment)) (s : St)
    (h : SubmitInv narrs s) : SubmitInv narrs (submitNext narrs s) := by
  unfold submitNext
  cases hg : narrs.get? s.nextToProcess with
  | none => exact h
  | some p =>
    show submitEvents (s.trace ++ [Event.submit p.1]) =
      (narrs.take (s.nextToProcess + 1)).map Prod.fst
    rw [submitEvents_append, h]
    have h1 : submitEvents [Event.submit p.1] = [p.1] := rfl
    rw [h1, List.take_succ]
    rw [List.get?_eq_getElem?] at hg
    rw [hg]
    simp

theorem KeysInv_submitNext (narrs : List (Nat × Segment)) (s : St)
    (h : KeysInv narrs s) : KeysInv narrs (submitNext narrs s) := by
  unfold submitNext
  cases hg : narrs.get? s.nextToProcess with
  | none => exact h
  | some p =>
    intro i hi
    show i ∈ (narrs.take (s.nextToProcess + 1)).map Prod.fst
    have hmem_p : p.1 ∈ (narrs.take (s.nextToProcess + 1)).map Prod.fst := by
      rw [List.take_succ]
      rw [List.get?_eq_getElem?] at hg
      rw [hg, List.map_append]
      refine List.mem_append_right _ ?_
      simp
    rcases hi with hi | hi
    · have hi' : i ∈ (s.pending ++ [(p.1, s.tick)]).map Prod.fst := hi
      rw [List.map_append] at hi'
      rcases List.mem_append.mp hi' with hi2 | hi2
      · exact take_map_subset_succ narrs _ i (h i (Or.inl hi2))
      · simp only [List.map_cons, List.map_nil, List.mem_singleton] at hi2
        subst hi2
        exact hmem_p
    · have hi' : i ∈ s.processed.map Prod.fst := hi
      exact take_map_subset_succ narrs _ i (h i (Or.inr hi'))

theorem waitLoop_inv (o : Oracle) (narrs : List (Nat × Segment)) (segIdx : Nat) :
    ∀ fuel s s', waitLoop o narrs segIdx fuel s = some s' →
      (SubmitInv narrs s → SubmitInv narrs s') ∧
      (KeysInv narrs s → KeysInv narrs s') := by
  intro fuel
  induction fuel with
  | zero =>
    intro s s' h
    unfold waitLoop at h
    split at h
    · obtain rfl : s = s' := by injection h
      exact ⟨id, id⟩
    · exact absurd h (by simp)
  | succ fuel ih =>
    intro s s' h
    unfold waitLoop at h
    split at h
    · obtain rfl : s = s' := by injection h
      exact ⟨id, id⟩
    · obtain ⟨ihS, ihK⟩ := ih _ _ h
      constructor
      · intro hS
        apply ihS
        have h1 : SubmitInv narrs (submitNext narrs (harvest o s)) :=
          SubmitInv_submitNext narrs _ (SubmitInv_harvest o narrs s hS)
        split <;> exact h1
      · intro hK
        apply ihK
        have h1 : KeysInv narrs (submitNext narrs (harvest o s)) :=
          KeysInv_submitNext narrs _ (KeysInv_harvest o narrs s hK)
        split <;> exact h1

theorem holdLoop_inv (o : Oracle) (narrs : List (Nat × Segment)) :
    ∀ iters s,
      (SubmitInv narrs s → SubmitInv narrs (holdLoop o narrs iters s)) ∧
      (KeysInv narrs s → KeysInv narrs (holdLoop o narrs iters s)) := by
  intro iters
  induction iters with
  | zero => intro s; rw [holdLoop]; exact ⟨id, id⟩
  | succ iters ih =>
    intro s
    rw [holdLoop]
    obtain ⟨ihS, ihK⟩ := ih { submitNext narrs (harvest o s) with
      tick := (submitNext narrs (harvest o s)).tick + 1 }
    constructor
    · intro hS
      exact ihS (SubmitInv_submitNext narrs _ (SubmitInv_harvest o narrs s hS))
    · intro hK
      exact ihK (KeysInv_submitNext narrs _ (KeysInv_harvest o narrs s hK))

theorem SubmitInv_popProc (narrs : List (Nat × Segment)) (s : St) (segIdx : Nat)
    (h : SubmitInv narrs s) : SubmitInv narrs (popProc s segIdx) := h

theorem KeysInv_popProc (narrs : List (Nat × Segment)) (s : St) (segIdx : Nat)
    (h : KeysInv narrs s) : KeysInv narrs (popProc s segIdx) := by
  intro i hi
  apply h i
  rcases hi with hi | hi
  · exact Or.inl hi
  · right
    obtain ⟨p, hp, rfl⟩ := List.mem_map.mp hi
    exact List.mem_map.mpr ⟨p, List.mem_of_mem_filter hp, rfl⟩

theorem SubmitInv_playNarr (narrs : List (Nat × Segment)) (s : St) (segIdx : Nat)
    (h : SubmitInv narrs s) : SubmitInv narrs (playNarr s segIdx) := by
  show submitEvents (s.trace ++ [Event.play segIdx]) = _
  rw [submitEvents_append]
  have h1 : submitEvents [Event.play segIdx] = [] := rfl
  rw [h1, List.append_nil]
  exact h

theorem KeysInv_playNarr (narrs : List (Nat × Segment)) (s : St) (segIdx : Nat)
    (h : KeysInv narrs s) : KeysInv narrs (playNarr s segIdx) := h

theorem SubmitInv_skipNarr (narrs : List (Nat × Segment)) (s : St)
    (h : SubmitInv narrs s) : SubmitInv narrs (skipNarr s) := h

theorem KeysInv_skipNarr (narrs : List (Nat × Segment)) (s : St)
    (h : KeysInv narrs s) : KeysInv narrs (skipNarr s) := h

theorem SubmitInv_holdEvent (narrs : List (Nat × Segment)) (s : St) (segIdx secs : Nat)
    (h : SubmitInv narrs s) :
    SubmitInv narrs { s with trace := s.trace ++ [Event.holdWait segIdx secs] } := by
  show submitEvents (s.trace ++ [Event.holdWait segIdx secs]) = _
  rw [submitEvents_append]
  have h1 : submitEvents [Event.holdWait segIdx secs] = [] := rfl
  rw [h1, List.append_nil]
  exact h

theorem KeysInv_holdEvent (narrs : List (Nat × Segment)) (s : St) (segIdx secs : Nat)
    (h : KeysInv narrs s) :
    KeysInv narrs { s with trace := s.trace ++ [Event.holdWait segIdx secs] } := h

/-! ## Position arguments for claim C3 -/

theorem mem_take_getElem? {α : Type _} :
    ∀ (l : List α) (n : Nat) (a : α), a ∈ l.take n → ∃ j, j < n ∧ l[j]? = some a := by
  intro l
  induction l with
  | nil => intro n a h; simp at h
  | cons x xs ih =>
    intro n a h
    cases n with
    | zero => simp at h
    | succ n =>
      rw [List.take_succ_cons] at h
      rcases List.mem_cons.mp h with rfl | h2
      · exact ⟨0, Nat.succ_pos _, List.getElem?_cons_zero⟩
      · obtain ⟨j, hj, hg⟩ := ih n a h2
        exact ⟨j + 1, Nat.succ_lt_succ hj, by simpa using hg⟩

theorem mem_take_map_lt {narrs : List (Nat × Segment)}
    (hnd : (narrs.map Prod.fst).Nodup) {k n : Nat} {p : Nat × Segment}
    (hk : narrs.get? k = some p)
    (hmem : p.1 ∈ (narrs.take n).map Prod.fst) : k < n := by
  rw [List.map_take] at hmem
  obtain ⟨j, hjn, hj⟩ := mem_take_getElem? _ _ _ hmem
  rw [List.get?_eq_getElem?] at hk
  have hkL : (narrs.map Prod.fst)[k]? = some p.1 := by
    rw [List.getElem?_map, hk]
    rfl
  obtain ⟨hlt, -⟩ := List.getElem?_eq_some_iff.mp hj
  have hjk : j = k := List.getElem?_inj hlt hnd (hj.trans hkL.symm)
  omega

theorem drop_cons_parts {α : Type _} {l : List α} {k : Nat} {x : α} {xs : List α}
    (h : l.drop k = x :: xs) : l.get? k = some x ∧ l.drop (k + 1) = xs := by
  constructor
  · have h0 := List.getElem?_drop l k 0
    rw [h] at h0
    rw [List.get?_eq_getElem?]
    simpa using h0.symm
  · have h1 := List.tail_drop l k
    rw [h] at h1
    simpa using h1.symm

theorem narrFilter_cons_narr (i : Nat) (c : String) (rest : List (Nat × Segment)) :
    narrFilter ((i, Segment.narration c) :: rest) =
      (i, Segment.narration c) :: narrFilter rest := rfl

theorem narrFilter_cons_hold (i secs : Nat) (rest : List (Nat × Segment)) :
    narrFilter ((i, Segment.hold secs) :: rest) = narrFilter rest := rfl

theorem narrs_fst_nodup (segments : List Segment) :
    ((narrationSegments segments).map Prod.fst).Nodup := by
  have hsub : List.Sublist (narrationSegments segments) segments.enum :=
    List.filter_sublist _
  exact List.Nodup.sublist (hsub.map Prod.fst) (List.nodup_enum_map_fst _)

/-- Main induction for claim C3: a successfully completed main loop leaves the
submission record equal to the first `next_to_process` narrations and has
submitted every narration. -/
theorem mainLoop_submits (o : Oracle) (narrs : List (Nat × Segment)) (fuel : Nat)
    (hnd : (narrs.map Prod.fst).Nodup) :
    ∀ l s s', SubmitInv narrs s → KeysInv narrs s →
      narrFilter l = narrs.drop s.playedNarrs →
      s.playedNarrs ≤ s.nextToProcess →
      mainLoop o narrs fuel l s = some (s', true) →
      SubmitInv narrs s' ∧ narrs.length ≤ s'.nextToProcess := by
  intro l
  induction l with
  | nil =>
    intro s s' hS hK hF hPN h
    rw [mainLoop_nil] at h
    injection h with h'
    have hs : s = s' := congrArg Prod.fst h'
    subst hs
    refine ⟨hS, ?_⟩
    have hdrop : narrs.drop s.playedNarrs = [] := by rw [← hF]; rfl
    have hlen := congrArg List.length hdrop
    rw [List.length_drop] at hlen
    simp only [List.length_nil] at hlen
    omega
  | cons hd rest ih =>
    obtain ⟨segIdx, seg⟩ := hd
    cases seg with
    | narration c =>
      intro s s' hS hK hF hPN h
      rw [narrFilter_cons_narr] at hF
      obtain ⟨hget, hdrop⟩ := drop_cons_parts hF.symm
      rw [mainLoop_narr] at h
      split at h
      · exact absurd h (by simp)
      · rename_i s1 hw
        obtain ⟨-, hpl1, -, hlook, -⟩ := waitLoop_spec o narrs segIdx fuel s s1 hw
        obtain ⟨hSpres, hKpres⟩ := waitLoop_inv o narrs segIdx fuel s s1 hw
        have hS1 := hSpres hS
        have hK1 := hKpres hK
        obtain ⟨r, hr⟩ := Option.isSome_iff_exists.mp hlook
        have hmemP : segIdx ∈ s1.processed.map Prod.fst :=
          List.mem_map.mpr ⟨(segIdx, r), lookupProc_mem hr, rfl⟩
        have hmemT : segIdx ∈ (narrs.take s1.nextToProcess).map Prod.fst :=
          hK1 segIdx (Or.inr hmemP)
        have hklt : s.playedNarrs < s1.nextToProcess :=
          mem_take_map_lt hnd hget hmemT
        split at h
        · rename_i a heq
          split at h
          · injection h with h'
            exact absurd (congrArg Prod.snd h') (by simp)
          · refine ih (playNarr (popProc s1 segIdx) segIdx) s' ?_ ?_ ?_ ?_ h
            · exact SubmitInv_playNarr narrs _ segIdx
                (SubmitInv_popProc narrs s1 segIdx hS1)
            · exact KeysInv_playNarr narrs _ segIdx
                (KeysInv_popProc narrs s1 segIdx hK1)
            · show narrFilter rest = narrs.drop (s1.playedNarrs + 1)
              rw [hpl1, hdrop]
            · show s1.playedNarrs + 1 ≤ s1.nextToProcess
              rw [hpl1]
              exact hklt
        · refine ih (skipNarr (popProc s1 segIdx)) s' ?_ ?_ ?_ ?_ h
          · exact SubmitInv_skipNarr narrs _ (SubmitInv_popProc narrs s1 segIdx hS1)
          · exact KeysInv_skipNarr narrs _ (KeysInv_popProc narrs s1 segIdx hK1)
          · show narrFilter rest = narrs.drop (s1.playedNarrs + 1)
            rw [hpl1, hdrop]
          · show s1.playedNarrs + 1 ≤ s1.nextToProcess
            rw [hpl1]
            exact hklt
    | hold secs =>
      intro s s' hS hK hF hPN h
      rw [narrFilter_cons_hold] at hF
      rw [mainLoop_hold] at h
      obtain ⟨ihS2, ihK2⟩ := holdLoop_inv o narrs (o.holdIters segIdx)
        { s with trace := s.trace ++ [Event.holdWait segIdx secs] }
      obtain ⟨-, hpl2, hntp2, -⟩ := holdLoop_spec o narrs (o.holdIters segIdx)
        { s with trace := s.trace ++ [Event.holdWait segIdx secs] }
      refine ih _ s' (ihS2 (SubmitInv_holdEvent narrs s segIdx secs hS))
        (ihK2 (KeysInv_holdEvent narrs s segIdx secs hK)) ?_ ?_ h
      · rw [hpl2]
        exact hF
      · rw [hpl2]
        exact le_trans hPN hntp2

theorem submitEvents_map_submit :
    ∀ L : List (Nat × Segment),
      submitEvents (L.map (fun p => Event.submit p.1)) = L.map Prod.fst := by
  intro L
  induction L with
  | nil => rfl
  | cons p L ih =>
    show submitEvents (Event.submit p.1 :: L.map (fun p => Event.submit p.1)) = _
    show p.1 :: submitEvents (L.map (fun p => Event.submit p.1)) = _
    rw [ih]
    rfl

/-- Claim C3: in every run of the scheduler that completes, the backend is
invoked exactly once per narration segment — zero times per hold segment — and
the submissions happen in narration index order (FIFO): the submission record
of the trace is exactly the list of narration segment indices in order. -/
theorem C3_each_narration_submitted_once (o : Oracle) (text : String)
    (bufferSize fuel : Nat) (res : RunResult)
    (h : run_yoga_session o text bufferSize fuel = some res)
    (hok : res.ok = true) :
    submitEvents res.trace = (narrationSegments (parse_session text)).map Prod.fst := by
  rw [run_eq] at h
  split at h
  · rename_i s ok hm
    injection h with hres
    subst hres
    have hoktrue : ok = true := hok
    subst hoktrue
    have hS0 : SubmitInv (narrationSegments (parse_session text))
        (startSt (narrationSegments (parse_session text)) bufferSize) := by
      show submitEvents (startSt (narrationSegments (parse_session text))
        bufferSize).trace = _
      rw [startSt_trace, submitEvents_map_submit]
      rfl
    have hK0 : KeysInv (narrationSegments (parse_session text))
        (startSt (narrationSegments (parse_session text)) bufferSize) := by
      intro i hi
      rcases hi with hi | hi
      · rw [startSt_pending, List.map_map] at hi
        exact hi
      · rw [startSt_processed] at hi
        exact absurd hi (by simp)
    have hF0 : narrFilter (parse_session text).enum =
        (narrationSegments (parse_session text)).drop
          (startSt (narrationSegments (parse_session text)) bufferSize).playedNarrs := by
      rw [startSt_played, List.drop_zero]
      rfl
    have hPN0 : (startSt (narrationSegments (parse_session text))
          bufferSize).playedNarrs ≤
        (startSt (narrationSegments (parse_session text)) bufferSize).nextToProcess := by
      rw [startSt_played]
      exact Nat.zero_le _
    obtain ⟨hSf, hlen⟩ := mainLoop_submits o _ fuel
      (narrs_fst_nodup (parse_session text)) _ _ _ hS0 hK0 hF0 hPN0 hm
    show submitEvents (s.trace ++ (if true then [Event.shutdown] else [])) = _
    rw [if_pos rfl, submitEvents_append]
    have hsd : submitEvents [Event.shutdown] = [] := rfl
    rw [hsd, List.append_nil, hSf, List.take_of_length_le hlen]
  · exact absurd h (by simp)

def rC3 : RunResult :=
  { trace := [Event.submit 0, Event.submit 2, Event.submit 4, Event.play 0,
      Event.holdWait 1 1, Event.play 2, Event.holdWait 3 1, Event.play 4,
      Event.shutdown],
    ok := true, maxWindow := 3 }

/-- Witness for C3: the concrete completed run `rC3` of session `tC1` submits
exactly its three narration indices 0, 2, 4 in order. -/
theorem C3_each_narration_submitted_once_witness :
    submitEvents rC3.trace = (narrationSegments (parse_session tC1)).map Prod.fst :=
  C3_each_narration_submitted_once oC2 tC1 2 10 rC3 (by decide) rfl

end Yoga
